import Mathlib

set_option maxRecDepth 8000

/-!
Verification development for the Guacamole Viewer repository.

The repository ships a Tauri/React frontend (`src/FavoritesViewer.tsx` and
earlier revisions of the same component).  The Rust backend commands that the
frontend invokes (the e621 sync engine, the FurAffinity reconciler and the
credential store) are not part of the repository sources, so those components
are modelled from the specification (each such definition carries a
`Modelled from the spec:` doc comment).  Everything else is a shallow
embedding of the TypeScript code.
-/

namespace Guac

/-! ## Viewer navigation (FavoritesViewer.tsx, `goToNext` / `goToPrev`)

`goToNext` updates the current index with `(prev + 1) % filteredItems.length`,
`goToPrev` with `(prev - 1 + filteredItems.length) % filteredItems.length`.
JavaScript `%` on nonnegative operands agrees with `Int.emod`, so we embed the
index arithmetic over `Int`. -/

def goToNext (len : Nat) (i : Int) : Int := (i + 1) % (len : Int)

def goToPrev (len : Nat) (i : Int) : Int := (i - 1 + (len : Int)) % (len : Int)

/-! ## JavaScript number parsing (the `Number(...)` builtin)

`startSync` validates the stop-after-N text field with `Number(syncMaxNew)`
followed by `Number.isFinite(n) && n > 0`.  We embed the ECMAScript
`StringNumericLiteral` semantics of `Number` applied to a string: whitespace
is trimmed, the empty remainder denotes `0`, otherwise the string must be a
signed decimal literal (optionally with fraction and exponent), a signed
`Infinity`, or an unsigned hex / octal / binary integer literal.

A finite parse result is kept exactly as a mantissa/exponent pair
`JsNum.fin m e` of value `m * 10 ^ e`.  Rounding the exact value to the
nearest IEEE-754 double never changes the only observations the code makes
(`Number.isFinite` and comparison with `0`), except for overflow to infinity
(magnitude `2^1024 - 2^970` and above) and underflow to zero (positive
magnitude `2^-1075` and below), which `fitDouble` applies exactly. -/

inductive JsNum where
  | nan : JsNum
  | inf : Bool → JsNum
  | fin : ℤ → ℤ → JsNum
deriving DecidableEq

/-- Characters trimmed by JS both in `String.prototype.trim` and in
`Number(string)` (WhiteSpace ∪ LineTerminator). -/
def isJsWhite (c : Char) : Bool :=
  c ∈ [' ', '\t', '\n', '\r', '\x0b', '\x0c', '\u00a0', '\u1680',
       '\u2000', '\u2001', '\u2002', '\u2003', '\u2004', '\u2005', '\u2006',
       '\u2007', '\u2008', '\u2009', '\u200a', '\u2028', '\u2029', '\u202f',
       '\u205f', '\u3000', '\ufeff']

def trimChars (cs : List Char) : List Char :=
  ((cs.dropWhile isJsWhite).reverse.dropWhile isJsWhite).reverse

/-- Embedding of `String.prototype.trim` (used by `startSync` for the
emptiness test). -/
def jsTrim (s : String) : String := String.mk (trimChars s.toList)

def digitsToNat (ds : List Char) : Nat :=
  ds.foldl (fun a c => a * 10 + (c.toNat - '0'.toNat)) 0

def radixVal (base : Nat) (c : Char) : Option Nat :=
  let v :=
    if '0' ≤ c ∧ c ≤ '9' then some (c.toNat - '0'.toNat)
    else if 'a' ≤ c ∧ c ≤ 'f' then some (c.toNat - 'a'.toNat + 10)
    else if 'A' ≤ c ∧ c ≤ 'F' then some (c.toNat - 'A'.toNat + 10)
    else none
  match v with
  | some d => if d < base then some d else none
  | none => none

/-- Value of a non-decimal (hex/octal/binary) digit string, `none` when empty
or containing an out-of-range character. -/
def parseRadix (base : Nat) (cs : List Char) : Option Nat :=
  if cs.isEmpty then none
  else
    cs.foldl
      (fun acc c =>
        match acc, radixVal base c with
        | some a, some d => some (a * base + d)
        | _, _ => none)
      (some 0)

/-- Parses an optional `ExponentPart` that must consume the whole remainder,
adding the (signed) decimal exponent to the already-accumulated one. -/
def parseExpPart (cs : List Char) (m : ℤ) (e : ℤ) : Option (ℤ × ℤ) :=
  match cs with
  | [] => some (m, e)
  | c :: rest =>
    if c = 'e' ∨ c = 'E' then
      let (eneg, rest2) :=
        match rest with
        | '+' :: r => (false, r)
        | '-' :: r => (true, r)
        | r => (false, r)
      let (eds, rest3) := rest2.span Char.isDigit
      if eds.isEmpty ∨ ¬ rest3.isEmpty then none
      else
        let ex : ℤ := digitsToNat eds
        some (m, if eneg then e - ex else e + ex)
    else none

/-- Parses `StrUnsignedDecimalLiteral` without the `Infinity` alternative:
`Digits . Digits? Exp?`, `. Digits Exp?` or `Digits Exp?`, consuming the whole
input; the result is a mantissa/exponent pair of value `m * 10 ^ e`. -/
def parseUnsignedDec (cs : List Char) : Option (ℤ × ℤ) :=
  let (intPart, rest) := cs.span Char.isDigit
  match rest with
  | '.' :: rest2 =>
    let (fracPart, rest3) := rest2.span Char.isDigit
    if intPart.isEmpty ∧ fracPart.isEmpty then none
    else
      parseExpPart rest3 (digitsToNat (intPart ++ fracPart))
        (-(fracPart.length : ℤ))
  | _ =>
    if intPart.isEmpty then none
    else parseExpPart rest (digitsToNat intPart) 0

/-- Decides `m * 10 ^ e ≥ c` by clearing the (positive) power of ten. -/
def valGE (m e c : ℤ) : Bool :=
  if 0 ≤ e then decide (c ≤ m * ((10 ^ e.toNat : ℕ) : ℤ))
  else decide (c * ((10 ^ (-e).toNat : ℕ) : ℤ) ≤ m)

/-- Smallest magnitude that IEEE-754 double rounding sends to infinity. -/
def dblOverflow : ℤ := ((2 ^ 1024 - 2 ^ 970 : ℕ) : ℤ)

/-- Decides `0 < |m * 10 ^ e| ≤ 2 ^ (-1075)`, the positive magnitudes that
IEEE-754 double rounding sends to zero. -/
def underflowsDouble (m e : ℤ) : Bool :=
  m != 0 &&
    (if 0 ≤ e then decide (|m| * ((10 ^ e.toNat : ℕ) : ℤ) * ((2 ^ 1075 : ℕ) : ℤ) ≤ 1)
     else decide (|m| * ((2 ^ 1075 : ℕ) : ℤ) ≤ ((10 ^ (-e).toNat : ℕ) : ℤ)))

/-- Applies the double-rounding effects of `Number` that are observable through
`Number.isFinite` and sign tests: overflow to ±Infinity and underflow to 0. -/
def fitDouble (m e : ℤ) : JsNum :=
  if valGE m e dblOverflow then JsNum.inf false
  else if valGE (-m) e dblOverflow then JsNum.inf true
  else if underflowsDouble m e then JsNum.fin 0 0
  else JsNum.fin m e

/-- Embedding of the JS builtin `Number` applied to a string
(ECMAScript `StringNumericLiteral` semantics). -/
def jsNumber (s : String) : JsNum :=
  let cs := trimChars s.toList
  match cs with
  | [] => JsNum.fin 0 0
  | '0' :: x :: rest =>
    if x = 'x' ∨ x = 'X' then
      match parseRadix 16 rest with
      | some n => fitDouble n 0
      | none => JsNum.nan
    else if x = 'o' ∨ x = 'O' then
      match parseRadix 8 rest with
      | some n => fitDouble n 0
      | none => JsNum.nan
    else if x = 'b' ∨ x = 'B' then
      match parseRadix 2 rest with
      | some n => fitDouble n 0
      | none => JsNum.nan
    else
      match parseUnsignedDec cs with
      | some (m, e) => fitDouble m e
      | none => JsNum.nan
  | _ =>
    let (neg, cs2) :=
      match cs with
      | '+' :: r => (false, r)
      | '-' :: r => (true, r)
      | r => (false, r)
    if cs2 = [ 'I', 'n', 'f', 'i', 'n', 'i', 't', 'y' ] then JsNum.inf neg
    else
      match parseUnsignedDec cs2 with
      | some (m, e) => fitDouble (if neg then -m else m) e
      | none => JsNum.nan

/-- Embedding of `startSync` (FavoritesViewer.tsx): returns `true` exactly when
the backend command `e621_sync_start` is invoked.  The source computes
`n = syncMaxNew.trim() === "" ? null : Number(syncMaxNew)` and rejects with an
alert when `syncMaxNew.trim() !== "" && (!Number.isFinite(n) || n <= 0)`;
a finite value `m * 10 ^ e` is positive exactly when `0 < m`. -/
def startSync (syncMaxNew : String) : Bool :=
  if jsTrim syncMaxNew = "" then true
  else
    match jsNumber syncMaxNew with
    | JsNum.fin m _ => decide (0 < m)
    | _ => false

/-- The value `m * 10 ^ e` of a finite parse result is a (mathematical)
integer. -/
def isIntegerVal (m e : ℤ) : Prop :=
  0 ≤ e ∨ (((10 ^ (-e).toNat : ℕ) : ℤ) ∣ m)

instance (m e : ℤ) : Decidable (isIntegerVal m e) := by
  unfold isIntegerVal
  infer_instance

/-- The property the claim asserts of accepted stop-after-N inputs: the string
denotes a positive integer under JS `Number` semantics. -/
def denotesPositiveInteger (s : String) : Prop :=
  ∃ m e : ℤ, jsNumber s = JsNum.fin m e ∧ 0 < m ∧ isIntegerVal m e

/-! ## Primary sync engine (spec sections 3, 4.1)

The Rust backend behind `e621_sync_start` / `e621_sync_status` is not part of
the repository sources (the frontend only declares the `SyncStatus` shape and
invokes the commands), so the engine is modelled from the specification. -/

/-- A candidate post of a remote favorites page: its source id and the
original-file URL when one is resolvable. -/
structure Post where
  source_id : String
  file_url : Option String
deriving DecidableEq

/-- Modelled from the spec: the `SyncRun` snapshot (section 3), mirroring the
frontend `SyncStatus` type of FavoritesViewer.tsx. -/
structure SyncRun where
  running : Bool
  cancelled : Bool
  max_new_downloads : Option Nat
  scanned_pages : Nat
  scanned_posts : Nat
  skipped_existing : Nat
  new_attempted : Nat
  downloaded_ok : Nat
  failed_downloads : Nat
  unavailable : Nat
  last_error : Option String
deriving DecidableEq

/-- The terminal states of the spec's run state machine
`idle → running → (completed | cancelled | failed)`. -/
inductive RunOutcome where
  | completed : RunOutcome
  | cancelled : RunOutcome
  | failed : RunOutcome
deriving DecidableEq

/-- A page fetch result: a page of posts, or an authentication-style failure
that the fetcher must surface distinctly (spec section 4.3) and that is
terminal for the run (spec section 4.1). -/
inductive PageResult where
  | ok : List Post → PageResult
  | authError : String → PageResult
deriving DecidableEq

/-- Intermediate result of the page/post loops: the item repository (the set
of archived `(source, source_id)` keys, source fixed to the primary source),
the state after the processed posts, the status snapshots observable after
each counter update, and the early-stop outcome if any. -/
structure EngineResult where
  repo : List String
  state : SyncRun
  snapshots : List SyncRun
  stop : Option RunOutcome
deriving DecidableEq

/-- Modelled from the spec: counters are reset at the start of a new run. -/
def initRun (maxNew : Option Nat) : SyncRun :=
  { running := true, cancelled := false, max_new_downloads := maxNew,
    scanned_pages := 0, scanned_posts := 0, skipped_existing := 0,
    new_attempted := 0, downloaded_ok := 0, failed_downloads := 0,
    unavailable := 0, last_error := none }

/-- Modelled from the spec (section 4.1, steps 1-5): classify one post as
already-archived / unavailable / downloaded / failed, updating the repository
and the counters; `download` is the download primitive (section 6), `true`
meaning the downloaded file was committed. -/
def processPost (download : String → Bool) (repo : List String) (st : SyncRun)
    (p : Post) : List String × SyncRun :=
  let st1 := { st with scanned_posts := st.scanned_posts + 1 }
  if p.source_id ∈ repo then
    (repo, { st1 with skipped_existing := st1.skipped_existing + 1 })
  else
    let st2 := { st1 with new_attempted := st1.new_attempted + 1 }
    match p.file_url with
    | none => (repo, { st2 with unavailable := st2.unavailable + 1 })
    | some url =>
      if download url then
        (p.source_id :: repo, { st2 with downloaded_ok := st2.downloaded_ok + 1 })
      else
        (repo,
         { st2 with
            failed_downloads := st2.failed_downloads + 1
            last_error := some ("download failed: " ++ url) })

/-- The stop condition `max_new_downloads` is set and
`downloaded_ok >= max_new_downloads` (spec section 4.1, step 6). -/
def reachedMax (st : SyncRun) : Bool :=
  match st.max_new_downloads with
  | some n => decide (n ≤ st.downloaded_ok)
  | none => false

/-- Modelled from the spec: the post loop of one page.  Between posts the
cancelled flag is checked (`cancel k` tells whether cancellation has been
requested by the time `k` posts have been scanned); after each successful
download the stop-after-N condition is checked (state `completed`, not
`cancelled`). -/
def runPosts (download : String → Bool) (cancel : Nat → Bool) :
    List Post → List String → SyncRun → EngineResult
  | [], repo, st => ⟨repo, st, [], none⟩
  | p :: ps, repo, st =>
    if cancel st.scanned_posts then ⟨repo, st, [], some RunOutcome.cancelled⟩
    else
      let pr := processPost download repo st p
      if st.downloaded_ok < pr.2.downloaded_ok ∧ reachedMax pr.2 then
        ⟨pr.1, pr.2, [pr.2], some RunOutcome.completed⟩
      else
        let r := runPosts download cancel ps pr.1 pr.2
        ⟨r.repo, r.state, pr.2 :: r.snapshots, r.stop⟩

/-- Modelled from the spec: the page loop.  `scanned_pages` is counted per
fetched page, the cancelled flag is also checked between pages, and an
authentication failure sets `last_error` and ends the run as `failed`. -/
def runPages (download : String → Bool) (cancel : Nat → Bool) :
    List PageResult → List String → SyncRun → EngineResult
  | [], repo, st => ⟨repo, st, [], none⟩
  | pg :: pgs, repo, st =>
    if cancel st.scanned_posts then ⟨repo, st, [], some RunOutcome.cancelled⟩
    else
      match pg with
      | PageResult.authError msg =>
        let st1 := { st with last_error := some msg }
        ⟨repo, st1, [st1], some RunOutcome.failed⟩
      | PageResult.ok posts =>
        let st1 := { st with scanned_pages := st.scanned_pages + 1 }
        let r := runPosts download cancel posts repo st1
        match r.stop with
        | some o => ⟨r.repo, r.state, st1 :: r.snapshots, some o⟩
        | none =>
          let r2 := runPages download cancel pgs r.repo r.state
          ⟨r2.repo, r2.state, st1 :: (r.snapshots ++ r2.snapshots), r2.stop⟩

/-- Result of one full run: final repository, the trace of status snapshots a
poller can observe (from the reset state to the final one), the final
snapshot and the outcome. -/
structure SyncResult where
  repo : List String
  trace : List SyncRun
  final : SyncRun
  outcome : RunOutcome
deriving DecidableEq

/-- Modelled from the spec: one invocation of the primary sync engine
(`start` with an optional `max_new_downloads`): counters are reset, the pages
are walked oldest-frontier-first as delivered by the paginated fetcher, and
the run ends `completed` on natural end or stop-after-N, `cancelled` on a
cancellation request, `failed` on an authentication failure; `running`
returns to `false` in every case. -/
def syncRun (download : String → Bool) (cancel : Nat → Bool)
    (maxNew : Option Nat) (pages : List PageResult) (repo0 : List String) :
    SyncResult :=
  let st0 := initRun maxNew
  let r := runPages download cancel pages repo0 st0
  let outcome := r.stop.getD RunOutcome.completed
  let final :=
    { r.state with
       running := false
       cancelled := decide (outcome = RunOutcome.cancelled) }
  ⟨r.repo, st0 :: (r.snapshots ++ [final]), final, outcome⟩

/-- Pointwise order on the seven `SyncRun` counters. -/
def counterLE (a b : SyncRun) : Prop :=
  a.scanned_pages ≤ b.scanned_pages ∧
  a.scanned_posts ≤ b.scanned_posts ∧
  a.skipped_existing ≤ b.skipped_existing ∧
  a.new_attempted ≤ b.new_attempted ∧
  a.downloaded_ok ≤ b.downloaded_ok ∧
  a.failed_downloads ≤ b.failed_downloads ∧
  a.unavailable ≤ b.unavailable

/-- A post is an eligible new download with respect to a repository: not yet
archived, carrying a file URL whose download succeeds. -/
def eligibleB (download : String → Bool) (repo : List String) (p : Post) : Bool :=
  decide (p.source_id ∉ repo) &&
    (match p.file_url with
     | some url => download url
     | none => false)

/-! ## Cross-source reconciler (spec section 4.2)

The FurAffinity import backend (`fa_start_sync` / `fa_sync_status`) is not in
the repository sources either (the frontend only declares `FASyncStatus` and
invokes the commands), so `reconcile` is modelled from the specification's
algorithm, steps 1-5 of section 4.2. -/

inductive Source where
  | primary : Source
  | secondary : Source
deriving DecidableEq

/-- An archived Item as far as the reconciler observes it: identity, remote
URL, content hash and provenance links. -/
structure RItem where
  source : Source
  source_id : String
  remote_url : Option String
  content_hash : Option String
  sources : List String
deriving DecidableEq

inductive ReconcileOutcome where
  | skippedExistingUrl : ReconcileOutcome
  | skippedExistingHash : ReconcileOutcome
  | upgraded : ReconcileOutcome
  | importedExclusive : ReconcileOutcome
  | error : ReconcileOutcome
deriving DecidableEq

/-- Modelled from the spec: the secondary run statistics, mirroring the
frontend `FASyncStatus` type. -/
structure FAStatus where
  scanned : Nat
  skipped_url : Nat
  skipped_md5 : Nat
  imported : Nat
  upgraded : Nat
  errors : Nat
  current_message : String
deriving DecidableEq

/-- A candidate image discovered on a secondary-source favorites page. -/
structure Candidate where
  remote_url : String
  page_source_id : String
deriving DecidableEq

/-- A record of the primary source's remote index, found by hash lookup. -/
structure PrimaryRecord where
  source_id : String
  file_url : String
deriving DecidableEq

/-- Modelled from the spec (section 4.2, steps 1-5): reconcile one candidate.
`download` returns the image bytes, `hash` the content hash,
`primaryLookup` the primary source's remote lookup-by-hash.  Step 1 skips an
already-archived `remote_url`; step 2 downloads and hashes; step 3 skips when
any Item already has this hash (regardless of source); step 4 commits an Item
attributed to the primary source when the hash is discoverable in the primary
index (`upgraded`); step 5 commits a secondary exclusive (`imported`). -/
def reconcile (hash : List Nat → String) (download : String → Option (List Nat))
    (primaryLookup : String → Option PrimaryRecord)
    (repo : List RItem) (st : FAStatus) (c : Candidate) :
    List RItem × FAStatus × ReconcileOutcome :=
  let st0 := { st with scanned := st.scanned + 1 }
  if repo.any (fun it => it.remote_url = some c.remote_url) then
    (repo, { st0 with skipped_url := st0.skipped_url + 1 },
      ReconcileOutcome.skippedExistingUrl)
  else
    match download c.remote_url with
    | none =>
      (repo, { st0 with errors := st0.errors + 1 }, ReconcileOutcome.error)
    | some bytes =>
      let h := hash bytes
      if repo.any (fun it => it.content_hash = some h) then
        (repo, { st0 with skipped_md5 := st0.skipped_md5 + 1 },
          ReconcileOutcome.skippedExistingHash)
      else
        match primaryLookup h with
        | some pr =>
          ({ source := Source.primary, source_id := pr.source_id,
             remote_url := some pr.file_url, content_hash := some h,
             sources := [c.remote_url] } :: repo,
           { st0 with upgraded := st0.upgraded + 1 }, ReconcileOutcome.upgraded)
        | none =>
          ({ source := Source.secondary, source_id := c.page_source_id,
             remote_url := some c.remote_url, content_hash := some h,
             sources := [] } :: repo,
           { st0 with imported := st0.imported + 1 },
           ReconcileOutcome.importedExclusive)

/-! ## Credential store (spec section 6)

The backend behind `e621_get_cred_info` / `e621_set_credentials` is not in
the repository sources; the store is modelled from the specification, and the
result type mirrors the frontend `E621CredInfo` type (username and a
`has_api_key` flag only — the secret has no field to travel through). -/

/-- Modelled from the spec: the per-source credential store contents. -/
structure CredStore where
  username : Option String
  api_key : Option String
deriving DecidableEq

/-- The frontend `E621CredInfo` type: `{ username, has_api_key }`. -/
structure E621CredInfo where
  username : Option String
  has_api_key : Bool
deriving DecidableEq

/-- Modelled from the spec: `get_cred_info(source) -> {username, has_secret}`
(never returns the secret itself); a blank stored secret counts as absent,
matching the blank-means-keep-existing update semantics. -/
def e621_get_cred_info (s : CredStore) : E621CredInfo :=
  { username := s.username,
    has_api_key :=
      match s.api_key with
      | some k => decide (k ≠ "")
      | none => false }

end Guac

namespace Guac

/-! ## Theorems -/

/-! ## Feed fetching (FavoritesViewer.tsx, `fetchFeedPosts`)

`fetchFeedPosts(feedId, query, { reset })` guards on credentials, an in-flight
load, a completed (`done`) paging state and `order:random` queries; then it
requests a page of up to `LIMIT = 50` posts with a page token that is "b"
followed by the stored `beforeId` when that is truthy and "1" otherwise,
then merges the fetched posts into the
feed's stored list with a `Map`-based dedupe by post id, and updates the
paging state: `beforeId` becomes the minimum id of the page (unchanged when
the page is empty, since the `reduce` over `Math.min` then stays at
`Infinity`), and `done` becomes `newPosts.length < LIMIT ||
newPosts.length === 0`.  We embed one call as a pure function from the
pre-state and the fetched page to either `none` (no request issued) or the
page token used together with the new paging state and stored list. -/

structure FeedPost where
  id : Nat
  body : String
deriving DecidableEq

structure FeedPagingState where
  beforeId : Option Nat
  done : Bool
deriving DecidableEq

/-- The default paging state `{ beforeId: null, done: false }` used when
`feedPaging[feedId]` is not yet set. -/
def initPaging : FeedPagingState := { beforeId := none, done := false }

/-- The page token: "b" followed by `beforeId` when truthy, else "1"; the JS
conditional treats both `null` and `0` as falsy. -/
def pageToken (beforeId : Option Nat) : String :=
  match beforeId with
  | some b => if b = 0 then "1" else "b" ++ toString b
  | none => "1"

/-- One step of `newPosts.reduce((m, p) => Math.min(m, p.id), Infinity)`;
`none` plays the role of the `Infinity` seed. -/
def minStep (m : Option Nat) (p : FeedPost) : Option Nat :=
  some (match m with | none => p.id | some v => min v p.id)

/-- `newPosts.reduce((m, p) => Math.min(m, p.id), Infinity)`, with `none` for
the `Infinity` result on an empty page. -/
def pageMinId (ps : List FeedPost) : Option Nat := ps.foldl minStep none

/-- The paging-state update performed after a successful fetch. -/
def updatePaging (paging : FeedPagingState) (newPosts : List FeedPost) :
    FeedPagingState :=
  { beforeId :=
      match pageMinId newPosts with
      | some m => some m
      | none => paging.beforeId,
    done := decide (newPosts.length < 50) || decide (newPosts.length = 0) }

/-- One `uniqueMap.set(p.id, p)` step: a JS `Map` keeps the position of the
first insertion of a key and replaces its value. -/
def mapUpsert (m : List (Nat × FeedPost)) (k : Nat) (v : FeedPost) :
    List (Nat × FeedPost) :=
  if m.any (fun e => e.1 = k) then
    m.map (fun e => if e.1 = k then (k, v) else e)
  else m ++ [(k, v)]

/-- `merged.forEach(p => uniqueMap.set(p.id, p))`. -/
def buildMap (m : List (Nat × FeedPost)) : List FeedPost → List (Nat × FeedPost)
  | [] => m
  | p :: ps => buildMap (mapUpsert m p.id p) ps

/-- `Array.from(uniqueMap.values())` after inserting every post of `ps`. -/
def dedupeById (ps : List FeedPost) : List FeedPost :=
  (buildMap [] ps).map Prod.snd

/-- The stored-list update: `[...existing, ...newPosts]` deduplicated by id. -/
def mergePosts (existing newPosts : List FeedPost) : List FeedPost :=
  dedupeById (existing ++ newPosts)

/-- Well-formedness of the association list modelling the JS `Map`: every
entry is keyed by its post's id and keys are unique. -/
def entriesWF (m : List (Nat × FeedPost)) : Prop :=
  (∀ e ∈ m, e.2.id = e.1) ∧ (m.map Prod.fst).Nodup

/-- `uniqueMap.get(k)`: the value stored at key `k`, if any. -/
def mapFind (m : List (Nat × FeedPost)) (k : Nat) : Option FeedPost :=
  (m.find? (fun e => decide (e.1 = k))).map Prod.snd

/-- The last element of `ps` whose id is `k`, if any (the copy a JS `Map`
retains after inserting all of `ps` in order). -/
def lastPostWith (k : Nat) : List FeedPost → Option FeedPost
  | [] => none
  | p :: ps =>
    match lastPostWith k ps with
    | some q => some q
    | none => if p.id = k then some p else none

/-- The guards of one `fetchFeedPosts` call that precede the request. -/
structure FetchInputs where
  credsOk : Bool
  loading : Bool
  queryRandom : Bool
  reset : Bool

/-- Embedding of one `fetchFeedPosts` call (FavoritesViewer.tsx): given the
pre-state and the page the request would return, the result is `none` when the
call returns without issuing a request, and otherwise the page token used,
the new paging state and the new stored post list. -/
def fetchFeedPosts (inp : FetchInputs) (paging : Option FeedPagingState)
    (existing : List FeedPost) (page : List FeedPost) :
    Option (String × FeedPagingState × List FeedPost) :=
  if ¬ inp.credsOk then none
  else if inp.loading then none
  else
    let paging0 := paging.getD initPaging
    if ¬ inp.reset ∧ paging0.done then none
    else if ¬ inp.reset ∧ inp.queryRandom then none
    else
      let beforeId := if inp.reset then none else paging0.beforeId
      let existing0 := if inp.reset then [] else existing
      some (pageToken beforeId, updatePaging paging0 page,
        mergePosts existing0 page)

/-- C10: for a non-empty `filteredItems` list and an in-range current index,
the index updates of `goToNext` and `goToPrev` are mutually inverse and keep
the index inside `[0, length)` — navigation wraps around at both ends. -/
theorem goToNext_goToPrev_inverse (len : Nat) (i : Int)
    (hlen : 0 < len) (h0 : 0 ≤ i) (h1 : i < (len : Int)) :
    goToPrev len (goToNext len i) = i ∧
    goToNext len (goToPrev len i) = i ∧
    (0 ≤ goToNext len i ∧ goToNext len i < (len : Int)) ∧
    (0 ≤ goToPrev len i ∧ goToPrev len i < (len : Int)) := by
  have hn : (0 : Int) < (len : Int) := by exact_mod_cast hlen
  have hne : (len : Int) ≠ 0 := ne_of_gt hn
  have hmod : ∀ a : Int, 0 ≤ a % (len : Int) ∧ a % (len : Int) < (len : Int) := by
    intro a
    exact ⟨Int.emod_nonneg a hne, Int.emod_lt_of_pos a hn⟩
  have hself : i % (len : Int) = i := Int.emod_eq_of_lt h0 h1
  have haddlen : (i + (len : Int)) % (len : Int) = i := by
    have h := Int.add_mul_emod_self_left (a := i) (b := (len : Int)) (c := 1)
    rw [mul_one] at h
    rw [h, hself]
  refine ⟨?_, ?_, hmod _, hmod _⟩
  · show ((i + 1) % (len : Int) - 1 + (len : Int)) % (len : Int) = i
    calc ((i + 1) % (len : Int) - 1 + (len : Int)) % (len : Int)
        = ((i + 1) % (len : Int) + (-1 + (len : Int))) % (len : Int) := by ring_nf
      _ = ((i + 1) + (-1 + (len : Int))) % (len : Int) := by
          rw [Int.add_emod, Int.emod_emod_of_dvd _ dvd_rfl, ← Int.add_emod]
      _ = (i + (len : Int)) % (len : Int) := by ring_nf
      _ = i := haddlen
  · show ((i - 1 + (len : Int)) % (len : Int) + 1) % (len : Int) = i
    calc ((i - 1 + (len : Int)) % (len : Int) + 1) % (len : Int)
        = ((i - 1 + (len : Int)) + 1) % (len : Int) := by
          rw [Int.add_emod, Int.emod_emod_of_dvd _ dvd_rfl, ← Int.add_emod]
      _ = (i + (len : Int)) % (len : Int) := by ring_nf
      _ = i := haddlen

/-- Witness for C10 at `len = 3`, `i = 2`: next wraps `2 ↦ 0`, prev undoes it. -/
theorem goToNext_goToPrev_inverse_witness :
    goToPrev 3 (goToNext 3 2) = 2 ∧
    goToNext 3 (goToPrev 3 2) = 2 ∧
    (0 ≤ goToNext 3 2 ∧ goToNext 3 2 < (3 : Int)) ∧
    (0 ≤ goToPrev 3 2 ∧ goToPrev 3 2 < (3 : Int)) :=
  goToNext_goToPrev_inverse 3 2 (by decide) (by decide) (by decide)

/-- C4 (corrected): `startSync` invokes the backend sync start command exactly
when the trimmed stop-after-N string is empty (then `max_new_downloads` is
passed as `null`) or the string denotes a finite positive JS number — not
necessarily an integer.  Any other input is rejected and no run is started. -/
theorem startSync_accepts_iff (s : String) :
    startSync s = true ↔
      (jsTrim s = "" ∨ ∃ m e : ℤ, jsNumber s = JsNum.fin m e ∧ 0 < m) := by
  unfold startSync
  by_cases h : jsTrim s = ""
  · simp [h]
  · rw [if_neg h]
    cases hn : jsNumber s with
    | nan => simp [h, hn]
    | inf b => simp [h, hn]
    | fin m e =>
      simp only [h, hn, false_or, decide_eq_true_eq, JsNum.fin.injEq]
      constructor
      · intro hm
        exact ⟨m, e, ⟨rfl, rfl⟩, hm⟩
      · rintro ⟨m', e', ⟨hm', he'⟩, hpos⟩
        exact hm' ▸ hpos

/-- Witness for C4 at concrete inputs: a blank field and the field `"5"` both
start a run. -/
theorem startSync_accepts_iff_witness :
    (jsTrim "" = "" ∨ ∃ m e : ℤ, jsNumber "" = JsNum.fin m e ∧ 0 < m) ∧
    (jsTrim "5" = "" ∨ ∃ m e : ℤ, jsNumber "5" = JsNum.fin m e ∧ 0 < m) :=
  ⟨(startSync_accepts_iff "").mp (by decide),
   (startSync_accepts_iff "5").mp (by decide)⟩

/-- Counterexample for C4 as stated: the input `"0.5"` is accepted by
`startSync` (the backend command is invoked with `max_new_downloads = 0.5`)
although `"0.5"` does not denote a positive integer. -/
theorem startSync_counterexample :
    startSync "0.5" = true ∧ jsTrim "0.5" ≠ "" ∧ ¬ denotesPositiveInteger "0.5" := by
  refine ⟨by decide, by decide, ?_⟩
  rintro ⟨m, e, heq, hpos, hint⟩
  rw [show jsNumber "0.5" = JsNum.fin 5 (-1) from by decide] at heq
  cases heq
  exact absurd hint (by decide)

end Guac

namespace Guac

theorem foldl_minStep_acc (ps : List FeedPost) (v : Nat) :
    ps.foldl minStep (some v) = some (ps.foldl (fun a p => min a p.id) v) := by
  induction ps generalizing v with
  | nil => rfl
  | cons p ps ih =>
    simp only [List.foldl_cons, minStep]
    exact ih (min v p.id)

theorem foldl_natmin_le_init (ps : List FeedPost) (v : Nat) :
    ps.foldl (fun a p => min a p.id) v ≤ v := by
  induction ps generalizing v with
  | nil => exact le_rfl
  | cons p ps ih =>
    simp only [List.foldl_cons]
    exact le_trans (ih (min v p.id)) (min_le_left _ _)

theorem foldl_natmin_le_mem (ps : List FeedPost) (v : Nat) :
    ∀ q ∈ ps, ps.foldl (fun a p => min a p.id) v ≤ q.id := by
  induction ps generalizing v with
  | nil => intro q hq; cases hq
  | cons p ps ih =>
    intro q hq
    rcases List.mem_cons.mp hq with hq | hq
    · rw [hq]
      simp only [List.foldl_cons]
      exact le_trans (foldl_natmin_le_init ps (min v p.id)) (min_le_right _ _)
    · exact ih (min v p.id) q hq

theorem foldl_natmin_attained (ps : List FeedPost) (v : Nat) :
    ps.foldl (fun a p => min a p.id) v = v ∨
      ∃ q ∈ ps, ps.foldl (fun a p => min a p.id) v = q.id := by
  induction ps generalizing v with
  | nil => exact Or.inl rfl
  | cons p ps ih =>
    simp only [List.foldl_cons]
    rcases ih (min v p.id) with h | ⟨q, hq, h⟩
    · rcases min_cases v p.id with ⟨hmin, _⟩ | ⟨hmin, _⟩
      · exact Or.inl (h.trans hmin)
      · exact Or.inr ⟨p, List.mem_cons_self _ _, h.trans hmin⟩
    · exact Or.inr ⟨q, List.mem_cons_of_mem _ hq, h⟩

theorem pageMinId_cons (p : FeedPost) (ps : List FeedPost) :
    pageMinId (p :: ps) = some (ps.foldl (fun a q => min a q.id) p.id) := by
  unfold pageMinId
  simp only [List.foldl_cons, minStep]
  exact foldl_minStep_acc ps p.id

theorem pageMinId_spec (ps : List FeedPost) (hne : ps ≠ []) :
    ∃ m, pageMinId ps = some m ∧ (∀ q ∈ ps, m ≤ q.id) ∧ ∃ q ∈ ps, q.id = m := by
  cases ps with
  | nil => exact absurd rfl hne
  | cons p ps =>
    refine ⟨ps.foldl (fun a q => min a q.id) p.id, pageMinId_cons p ps, ?_, ?_⟩
    · intro q hq
      rcases List.mem_cons.mp hq with hq | hq
      · rw [hq]
        exact foldl_natmin_le_init ps p.id
      · exact foldl_natmin_le_mem ps p.id q hq
    · rcases foldl_natmin_attained ps p.id with h | ⟨q, hq, h⟩
      · exact ⟨p, List.mem_cons_self _ _, h.symm⟩
      · exact ⟨q, List.mem_cons_of_mem _ hq, h.symm⟩

end Guac

namespace Guac

theorem mapUpsert_keys_true (m : List (Nat × FeedPost)) (k : Nat) (v : FeedPost)
    (h : m.any (fun e => decide (e.1 = k)) = true) :
    (mapUpsert m k v).map Prod.fst = m.map Prod.fst := by
  unfold mapUpsert
  rw [if_pos h]
  rw [List.map_map]
  apply List.map_congr_left
  intro e _
  by_cases he : e.1 = k
  · simp [he]
  · simp [he]

theorem mapUpsert_keys_false (m : List (Nat × FeedPost)) (k : Nat) (v : FeedPost)
    (h : ¬ m.any (fun e => decide (e.1 = k)) = true) :
    (mapUpsert m k v).map Prod.fst = m.map Prod.fst ++ [k] := by
  unfold mapUpsert
  rw [if_neg h]
  simp

theorem any_key_false_not_mem (m : List (Nat × FeedPost)) (k : Nat)
    (h : ¬ m.any (fun e => decide (e.1 = k)) = true) :
    k ∉ m.map Prod.fst := by
  intro hk
  rcases List.mem_map.mp hk with ⟨e, he, hek⟩
  exact h (List.any_eq_true.mpr ⟨e, he, by simp [hek]⟩)

theorem mapUpsert_wf (m : List (Nat × FeedPost)) (k : Nat) (v : FeedPost)
    (hwf : entriesWF m) (hkv : v.id = k) : entriesWF (mapUpsert m k v) := by
  obtain ⟨hall, hnd⟩ := hwf
  by_cases h : m.any (fun e => decide (e.1 = k)) = true
  · constructor
    · intro e he
      unfold mapUpsert at he
      rw [if_pos h] at he
      rcases List.mem_map.mp he with ⟨e0, he0, hmap⟩
      by_cases he0k : e0.1 = k
      · rw [if_pos he0k] at hmap
        rw [← hmap]
        exact hkv
      · rw [if_neg he0k] at hmap
        rw [← hmap]
        exact hall e0 he0
    · rw [mapUpsert_keys_true m k v h]
      exact hnd
  · constructor
    · intro e he
      unfold mapUpsert at he
      rw [if_neg h] at he
      rcases List.mem_append.mp he with he0 | he0
      · exact hall e he0
      · rcases List.mem_singleton.mp he0 with rfl
        exact hkv
    · rw [mapUpsert_keys_false m k v h]
      rw [List.nodup_append]
      refine ⟨hnd, List.nodup_singleton k, ?_⟩
      intro a ha hb
      rw [List.mem_singleton] at hb
      rw [hb] at ha
      exact any_key_false_not_mem m k h ha

end Guac

namespace Guac

theorem buildMap_wf (ps : List FeedPost) (m : List (Nat × FeedPost))
    (hwf : entriesWF m) : entriesWF (buildMap m ps) := by
  induction ps generalizing m with
  | nil => exact hwf
  | cons p ps ih => exact ih _ (mapUpsert_wf m p.id p hwf rfl)

theorem entriesWF_nil : entriesWF [] :=
  ⟨fun e he => absurd he (List.not_mem_nil e), List.nodup_nil⟩

theorem map_snd_id_eq_keys (m : List (Nat × FeedPost))
    (hall : ∀ e ∈ m, e.2.id = e.1) :
    (m.map Prod.snd).map FeedPost.id = m.map Prod.fst := by
  rw [List.map_map]
  exact List.map_congr_left hall

theorem dedupeById_nodup (ps : List FeedPost) :
    ((dedupeById ps).map FeedPost.id).Nodup := by
  have hwf := buildMap_wf ps [] entriesWF_nil
  unfold dedupeById
  rw [map_snd_id_eq_keys _ hwf.1]
  exact hwf.2

theorem find_map_upd (m : List (Nat × FeedPost)) (k : Nat) (v : FeedPost)
    (h : m.any (fun e => decide (e.1 = k)) = true) :
    (m.map (fun e => if e.1 = k then (k, v) else e)).find?
        (fun e => decide (e.1 = k)) = some (k, v) := by
  induction m with
  | nil => simp at h
  | cons e0 m ih =>
    by_cases he0 : e0.1 = k
    · simp [List.find?_cons, if_pos he0]
    · have hd : decide (e0.1 = k) = false := decide_eq_false he0
      simp only [List.map_cons, if_neg he0, List.find?_cons, hd]
      apply ih
      simp only [List.any_cons] at h
      rcases Bool.or_eq_true_iff.mp h with h0 | h0
      · exact absurd (of_decide_eq_true h0) he0
      · exact h0

theorem find_map_upd_ne (m : List (Nat × FeedPost)) (k k' : Nat) (v : FeedPost)
    (hne : k' ≠ k) :
    (m.map (fun e => if e.1 = k then (k, v) else e)).find?
        (fun e => decide (e.1 = k')) =
      m.find? (fun e => decide (e.1 = k')) := by
  induction m with
  | nil => rfl
  | cons e0 m ih =>
    by_cases he0 : e0.1 = k
    · have h1 : decide ((k : Nat) = k') = false := decide_eq_false (Ne.symm hne)
      have h2 : decide (e0.1 = k') = false := by
        rw [he0]
        exact decide_eq_false (Ne.symm hne)
      simp only [List.map_cons, if_pos he0, List.find?_cons, h1, h2]
      exact ih
    · simp only [List.map_cons, if_neg he0, List.find?_cons]
      by_cases he0' : e0.1 = k'
      · simp only [decide_eq_true he0']
      · simp only [decide_eq_false he0']
        exact ih

theorem mapFind_upsert_self (m : List (Nat × FeedPost)) (k : Nat) (v : FeedPost) :
    mapFind (mapUpsert m k v) k = some v := by
  unfold mapFind mapUpsert
  by_cases h : m.any (fun e => decide (e.1 = k)) = true
  · rw [if_pos h, find_map_upd m k v h]
    rfl
  · rw [if_neg h]
    rw [List.find?_append]
    have hnone : m.find? (fun e => decide (e.1 = k)) = none := by
      rw [List.find?_eq_none]
      intro e he hd
      exact h (List.any_eq_true.mpr ⟨e, he, hd⟩)
    rw [hnone]
    simp

theorem mapFind_upsert_ne (m : List (Nat × FeedPost)) (k k' : Nat) (v : FeedPost)
    (hne : k' ≠ k) :
    mapFind (mapUpsert m k v) k' = mapFind m k' := by
  unfold mapFind mapUpsert
  by_cases h : m.any (fun e => decide (e.1 = k)) = true
  · rw [if_pos h, find_map_upd_ne m k k' v hne]
  · rw [if_neg h]
    rw [List.find?_append]
    have h2 : List.find? (fun e => decide (e.1 = k')) [(k, v)] = none := by
      simp [Ne.symm hne]
    rw [h2]
    simp

theorem buildMap_find (ps : List FeedPost) (m : List (Nat × FeedPost)) (k : Nat) :
    mapFind (buildMap m ps) k =
      match lastPostWith k ps with
      | some q => some q
      | none => mapFind m k := by
  induction ps generalizing m with
  | nil => rfl
  | cons p ps ih =>
    show mapFind (buildMap (mapUpsert m p.id p) ps) k = _
    rw [ih]
    cases hl : lastPostWith k ps with
    | some q => simp [lastPostWith, hl]
    | none =>
      by_cases hk : p.id = k
      · simp only [lastPostWith, hl, if_pos hk]
        rw [← hk, mapFind_upsert_self]
      · simp only [lastPostWith, hl, if_neg hk]
        exact mapFind_upsert_ne m p.id k p (fun hkk => hk hkk.symm)

end Guac

namespace Guac

theorem mem_map_snd_find (m : List (Nat × FeedPost)) (r : FeedPost)
    (hwf : entriesWF m) (hr : r ∈ m.map Prod.snd) :
    mapFind m r.id = some r := by
  induction m with
  | nil => cases hr
  | cons e0 m ih =>
    obtain ⟨hall, hnd⟩ := hwf
    rcases List.mem_cons.mp hr with hr0 | hr0
    · have he0 : e0.1 = r.id := by
        rw [hr0]
        exact (hall e0 (List.mem_cons_self _ _)).symm
      unfold mapFind
      rw [List.find?_cons, decide_eq_true he0]
      rw [hr0]
      rfl
    · by_cases he0 : e0.1 = r.id
      · exfalso
        rcases List.mem_map.mp hr0 with ⟨e, he, hes⟩
        have : e.1 = r.id := by
          rw [← hes]
          exact (hall e (List.mem_cons_of_mem _ he)).symm
        have hk : r.id ∈ m.map Prod.fst := List.mem_map.mpr ⟨e, he, this⟩
        rw [List.map_cons, List.nodup_cons] at hnd
        exact hnd.1 (he0 ▸ hk)
      · unfold mapFind
        rw [List.find?_cons, decide_eq_false he0]
        exact ih ⟨fun e he => hall e (List.mem_cons_of_mem _ he),
          (List.nodup_cons.mp (List.map_cons Prod.fst e0 m ▸ hnd)).2⟩ hr0

theorem lastPostWith_mem (k : Nat) (ps : List FeedPost) (q : FeedPost)
    (h : lastPostWith k ps = some q) : q ∈ ps ∧ q.id = k := by
  induction ps with
  | nil => cases h
  | cons p ps ih =>
    unfold lastPostWith at h
    cases hl : lastPostWith k ps with
    | some q' =>
      rw [hl] at h
      cases h
      exact ⟨List.mem_cons_of_mem _ (ih hl).1, (ih hl).2⟩
    | none =>
      rw [hl] at h
      by_cases hk : p.id = k
      · rw [if_pos hk] at h
        cases h
        exact ⟨List.mem_cons_self _ _, hk⟩
      · rw [if_neg hk] at h
        cases h

theorem lastPostWith_isSome (k : Nat) (ps : List FeedPost)
    (h : ∃ p ∈ ps, p.id = k) : lastPostWith k ps ≠ none := by
  induction ps with
  | nil => rcases h with ⟨p, hp, _⟩; cases hp
  | cons p ps ih =>
    rcases h with ⟨p0, hp0, hid⟩
    unfold lastPostWith
    cases hl : lastPostWith k ps with
    | some q => simp
    | none =>
      rcases List.mem_cons.mp hp0 with h0 | h0
      · rw [if_pos (h0 ▸ hid)]
        simp
      · exact absurd hl (ih ⟨p0, h0, hid⟩)

theorem lastPostWith_cons (k : Nat) (p : FeedPost) (ps : List FeedPost) :
    lastPostWith k (p :: ps) =
      match lastPostWith k ps with
      | some q => some q
      | none => if p.id = k then some p else none := rfl

theorem lastPostWith_append (k : Nat) (a b : List FeedPost) :
    lastPostWith k (a ++ b) =
      match lastPostWith k b with
      | some q => some q
      | none => lastPostWith k a := by
  induction a with
  | nil =>
    cases hl : lastPostWith k b <;> simp [lastPostWith, hl]
  | cons x a ih =>
    rw [List.cons_append, lastPostWith_cons, ih, lastPostWith_cons]
    cases hb : lastPostWith k b with
    | some q => rfl
    | none => rfl

theorem dedupeById_last (ps : List FeedPost) (r : FeedPost)
    (hr : r ∈ dedupeById ps) : lastPostWith r.id ps = some r := by
  have hwf := buildMap_wf ps [] entriesWF_nil
  have hfind := mem_map_snd_find (buildMap [] ps) r hwf hr
  rw [buildMap_find ps [] r.id] at hfind
  cases hl : lastPostWith r.id ps with
  | some q =>
    rw [hl] at hfind
    cases hfind
    rfl
  | none =>
    rw [hl] at hfind
    cases hfind

end Guac

namespace Guac

theorem fetchFeedPosts_some_inv (inp : FetchInputs) (paging : Option FeedPagingState)
    (existing page : List FeedPost) (token : String) (st : FeedPagingState)
    (merged : List FeedPost)
    (h : fetchFeedPosts inp paging existing page = some (token, st, merged)) :
    token = pageToken (if inp.reset then none else (paging.getD initPaging).beforeId) ∧
    st = updatePaging (paging.getD initPaging) page ∧
    merged = mergePosts (if inp.reset then [] else existing) page := by
  cases hcred : inp.credsOk with
  | false => simp [fetchFeedPosts, hcred] at h
  | true =>
  cases hload : inp.loading with
  | true => simp [fetchFeedPosts, hcred, hload] at h
  | false =>
  cases hreset : inp.reset with
  | true =>
    simp [fetchFeedPosts, hcred, hload, hreset] at h
    exact ⟨h.1.symm, h.2.1.symm, h.2.2.symm⟩
  | false =>
  cases hdone : (paging.getD initPaging).done with
  | true => simp [fetchFeedPosts, hcred, hload, hreset, hdone] at h
  | false =>
  cases hrand : inp.queryRandom with
  | true => simp [fetchFeedPosts, hcred, hload, hreset, hdone, hrand] at h
  | false =>
    simp [fetchFeedPosts, hcred, hload, hreset, hdone, hrand] at h
    exact ⟨h.1.symm, h.2.1.symm, h.2.2.symm⟩

/-- C5: a successful non-reset `fetchFeedPosts` fetch requests the page with
token "b" followed by the stored `beforeId` (or "1" when no cursor is stored
yet); afterwards the stored `beforeId` is the minimum id of the received page
when it is non-empty and is unchanged when the page is empty, and when the
remote honours the before-id contract (all returned ids below the cursor) the
cursor strictly decreases, so successive pages advance to older posts. -/
theorem fetchFeedPosts_cursor (inp : FetchInputs) (paging : Option FeedPagingState)
    (existing page : List FeedPost) (token : String) (st : FeedPagingState)
    (merged : List FeedPost)
    (hreset : inp.reset = false)
    (hfetch : fetchFeedPosts inp paging existing page = some (token, st, merged))
    (hpos : (paging.getD initPaging).beforeId ≠ some 0) :
    (token = match (paging.getD initPaging).beforeId with
             | some b => "b" ++ toString b
             | none => "1") ∧
    (page = [] → st.beforeId = (paging.getD initPaging).beforeId) ∧
    (page ≠ [] → ∃ m, st.beforeId = some m ∧
      (∀ q ∈ page, m ≤ q.id) ∧ ∃ q ∈ page, q.id = m) ∧
    (∀ b, (paging.getD initPaging).beforeId = some b → page ≠ [] →
      (∀ q ∈ page, q.id < b) → ∀ m, st.beforeId = some m → m < b) := by
  obtain ⟨htok, hst, _⟩ :=
    fetchFeedPosts_some_inv inp paging existing page token st merged hfetch
  simp only [hreset, Bool.false_eq_true, if_false] at htok
  refine ⟨?_, ?_, ?_, ?_⟩
  · cases hb : (paging.getD initPaging).beforeId with
    | none => simpa [pageToken, hb] using htok
    | some b =>
      have hb0 : b ≠ 0 := by
        intro h0
        exact hpos (by rw [hb, h0])
      rw [hb] at htok
      simpa [pageToken, hb0] using htok
  · intro hpage
    rw [hst, hpage]
    rfl
  · intro hpage
    obtain ⟨m, hm, hle, hat⟩ := pageMinId_spec page hpage
    refine ⟨m, ?_, hle, hat⟩
    rw [hst]
    simp [updatePaging, hm]
  · intro b hb hne hlt m hm
    obtain ⟨m0, hmm, hle0, hat0⟩ := pageMinId_spec page hne
    have hbid : st.beforeId = some m0 := by
      rw [hst]
      simp [updatePaging, hmm]
    rw [hbid] at hm
    cases hm
    obtain ⟨q, hq, hqid⟩ := hat0
    exact hqid ▸ hlt q hq

/-- Witness for C5: with stored cursor 100 and fetched page of ids 60 and 55,
the token is "b100" and the new cursor 55 is strictly older than 100. -/
theorem fetchFeedPosts_cursor_witness :
    pageToken (some 100) = "b100" ∧ (55 : ℕ) < 100 := by
  refine ⟨by decide, ?_⟩
  have h := fetchFeedPosts_cursor ⟨true, false, false, false⟩
    (some ⟨some 100, false⟩) [] [⟨60, "a"⟩, ⟨55, "b"⟩] "b100"
    (updatePaging ⟨some 100, false⟩ [⟨60, "a"⟩, ⟨55, "b"⟩])
    (mergePosts [] [⟨60, "a"⟩, ⟨55, "b"⟩]) rfl rfl (by decide)
  refine h.2.2.2 100 rfl (by decide) (by decide) 55 ?_
  decide

/-- C6: a fetch returning fewer than the page limit of 50 posts marks the
feed's paging state done; every later non-reset call for a done feed returns
without issuing a request; a fetch returning a full page of 50 posts leaves
the feed not done. -/
theorem fetchFeedPosts_done_pagination (inp : FetchInputs)
    (paging : Option FeedPagingState) (existing page : List FeedPost) :
    (∀ token st merged,
        fetchFeedPosts inp paging existing page = some (token, st, merged) →
        (page.length < 50 → st.done = true) ∧
        (page.length = 50 → st.done = false)) ∧
    (inp.reset = false → (paging.getD initPaging).done = true →
        fetchFeedPosts inp paging existing page = none) := by
  constructor
  · intro token st merged hfetch
    obtain ⟨_, hst, _⟩ :=
      fetchFeedPosts_some_inv inp paging existing page token st merged hfetch
    constructor
    · intro hlt
      rw [hst]
      simp [updatePaging, hlt]
    · intro heq
      rw [hst]
      simp [updatePaging, heq]
  · intro hr hd
    cases hcred : inp.credsOk with
    | false => simp [fetchFeedPosts, hcred]
    | true =>
      cases hload : inp.loading with
      | true => simp [fetchFeedPosts, hcred, hload]
      | false => simp [fetchFeedPosts, hcred, hload, hr, hd]

/-- Witness for C6: a one-post page marks the feed done, and a later
non-reset call for a done feed issues no request. -/
theorem fetchFeedPosts_done_pagination_witness :
    (updatePaging initPaging [⟨7, "x"⟩]).done = true ∧
    fetchFeedPosts ⟨true, false, false, false⟩ (some ⟨some 7, true⟩) [] [] = none := by
  constructor
  · exact ((fetchFeedPosts_done_pagination ⟨true, false, false, false⟩
      (some initPaging) [] [⟨7, "x"⟩]).1 "1" (updatePaging initPaging [⟨7, "x"⟩])
      (mergePosts [] [⟨7, "x"⟩]) (by decide)).1 (by decide)
  · exact (fetchFeedPosts_done_pagination ⟨true, false, false, false⟩
      (some ⟨some 7, true⟩) [] []).2 rfl rfl

/-- C9: after any completed `fetchFeedPosts` call the stored post list has at
most one entry per post id, and an id refetched in the page replaces the
stored copy: the surviving entry for such an id comes from the new page. -/
theorem fetchFeedPosts_dedup (inp : FetchInputs) (paging : Option FeedPagingState)
    (existing page : List FeedPost) (token : String) (st : FeedPagingState)
    (merged : List FeedPost)
    (hfetch : fetchFeedPosts inp paging existing page = some (token, st, merged)) :
    (merged.map FeedPost.id).Nodup ∧
    ∀ r ∈ merged, (∃ p ∈ page, p.id = r.id) → r ∈ page := by
  obtain ⟨_, _, hm⟩ :=
    fetchFeedPosts_some_inv inp paging existing page token st merged hfetch
  constructor
  · rw [hm]
    exact dedupeById_nodup _
  · intro r hr hex
    rw [hm] at hr
    unfold mergePosts at hr
    have hlast := dedupeById_last _ r hr
    rw [lastPostWith_append] at hlast
    cases hp : lastPostWith r.id page with
    | some q =>
      rw [hp] at hlast
      cases hlast
      exact (lastPostWith_mem _ _ _ hp).1
    | none =>
      exfalso
      apply lastPostWith_isSome r.id page _ hp
      rcases hex with ⟨p, hp2, hid⟩
      exact ⟨p, hp2, hid⟩

/-- Witness for C9: refetching id 1 replaces the stored copy, leaving one
entry per id. -/
theorem fetchFeedPosts_dedup_witness :
    ((mergePosts [⟨1, "old"⟩] [⟨1, "new"⟩, ⟨2, "p"⟩]).map FeedPost.id).Nodup :=
  (fetchFeedPosts_dedup ⟨true, false, false, false⟩ none [⟨1, "old"⟩]
    [⟨1, "new"⟩, ⟨2, "p"⟩] "1" (updatePaging initPaging [⟨1, "new"⟩, ⟨2, "p"⟩])
    (mergePosts [⟨1, "old"⟩] [⟨1, "new"⟩, ⟨2, "p"⟩]) (by decide)).1

end Guac

namespace Guac

theorem counterLE_refl (a : SyncRun) : counterLE a a :=
  ⟨le_rfl, le_rfl, le_rfl, le_rfl, le_rfl, le_rfl, le_rfl⟩

theorem processPost_counterLE (download : String → Bool) (repo : List String)
    (st : SyncRun) (p : Post) : counterLE st (processPost download repo st p).2 := by
  unfold counterLE
  by_cases h : p.source_id ∈ repo
  · simp [processPost, h]
  · cases hf : p.file_url with
    | none => simp [processPost, h, hf]
    | some url =>
      by_cases hd : download url
      · simp [processPost, h, hf, hd]
      · simp [processPost, h, hf, hd]

theorem processPost_running (download : String → Bool) (repo : List String)
    (st : SyncRun) (p : Post) :
    (processPost download repo st p).2.running = st.running := by
  by_cases h : p.source_id ∈ repo
  · simp [processPost, h]
  · cases hf : p.file_url with
    | none => simp [processPost, h, hf]
    | some url =>
      by_cases hd : download url
      · simp [processPost, h, hf, hd]
      · simp [processPost, h, hf, hd]

theorem processPost_max (download : String → Bool) (repo : List String)
    (st : SyncRun) (p : Post) :
    (processPost download repo st p).2.max_new_downloads = st.max_new_downloads := by
  by_cases h : p.source_id ∈ repo
  · simp [processPost, h]
  · cases hf : p.file_url with
    | none => simp [processPost, h, hf]
    | some url =>
      by_cases hd : download url
      · simp [processPost, h, hf, hd]
      · simp [processPost, h, hf, hd]

theorem processPost_repo_mono (download : String → Bool) (repo : List String)
    (st : SyncRun) (p : Post) :
    ∀ x ∈ repo, x ∈ (processPost download repo st p).1 := by
  intro x hx
  by_cases h : p.source_id ∈ repo
  · simp [processPost, h]
    exact hx
  · cases hf : p.file_url with
    | none =>
      simp [processPost, h, hf]
      exact hx
    | some url =>
      by_cases hd : download url
      · simp [processPost, h, hf, hd]
        exact Or.inr hx
      · simp [processPost, h, hf, hd]
        exact hx

theorem processPost_mem (download : String → Bool) (repo : List String)
    (st : SyncRun) (p : Post)
    (h : p.source_id ∈ repo ∨ ∃ u, p.file_url = some u ∧ download u = true) :
    p.source_id ∈ (processPost download repo st p).1 := by
  by_cases hr : p.source_id ∈ repo
  · simp [processPost, hr]
  · rcases h with h | ⟨u, hu, hdu⟩
    · exact absurd h hr
    · simp [processPost, hr, hu, hdu]

theorem chain'_glue (a b : SyncRun) (l1 l2 : List SyncRun)
    (h1 : List.Chain' counterLE (a :: l1))
    (hl1 : (a :: l1).getLast? = some b)
    (h2 : List.Chain' counterLE (b :: l2)) :
    List.Chain' counterLE ((a :: l1) ++ l2) ∧
    ((a :: l1) ++ l2).getLast? = (b :: l2).getLast? := by
  induction l1 generalizing a with
  | nil =>
    have hb : a = b := by
      simp only [List.getLast?_singleton, Option.some.injEq] at hl1
      exact hl1
    subst hb
    exact ⟨h2, rfl⟩
  | cons x l1 ih =>
    have hchain := (List.chain'_cons.mp h1)
    have hl1' : (x :: l1).getLast? = some b := by
      rw [List.getLast?_cons_cons] at hl1
      exact hl1
    obtain ⟨hc, hl⟩ := ih x hchain.2 hl1'
    constructor
    · exact List.chain'_cons.mpr ⟨hchain.1, hc⟩
    · rw [← hl]
      exact List.getLast?_cons_cons

end Guac

namespace Guac

theorem runPosts_trace (download : String → Bool) (cancel : Nat → Bool)
    (ps : List Post) : ∀ (repo : List String) (st : SyncRun),
    List.Chain' counterLE (st :: (runPosts download cancel ps repo st).snapshots) ∧
    (st :: (runPosts download cancel ps repo st).snapshots).getLast? =
      some (runPosts download cancel ps repo st).state ∧
    (runPosts download cancel ps repo st).state.running = st.running ∧
    (∀ s ∈ (runPosts download cancel ps repo st).snapshots, s.running = st.running) := by
  induction ps with
  | nil =>
    intro repo st
    refine ⟨List.chain'_singleton st, rfl, rfl, ?_⟩
    intro s hs
    cases hs
  | cons p ps ih =>
    intro repo st
    cases hc : cancel st.scanned_posts with
    | true =>
      simp only [runPosts, hc, if_pos rfl]
      refine ⟨List.chain'_singleton st, rfl, rfl, ?_⟩
      intro s hs
      cases hs
    | false =>
      have hple := processPost_counterLE download repo st p
      have hprun := processPost_running download repo st p
      by_cases hstop : st.downloaded_ok < (processPost download repo st p).2.downloaded_ok ∧
          reachedMax (processPost download repo st p).2
      · simp only [runPosts, hc, Bool.false_eq_true, if_false, if_pos hstop]
        refine ⟨?_, rfl, hprun, ?_⟩
        · exact List.chain'_cons.mpr ⟨hple, List.chain'_singleton _⟩
        · intro s hs
          rcases List.mem_cons.mp hs with rfl | hs
          · exact hprun
          · cases hs
      · simp only [runPosts, hc, Bool.false_eq_true, if_false, if_neg hstop]
        obtain ⟨ihc, ihl, ihr, ihall⟩ :=
          ih (processPost download repo st p).1 (processPost download repo st p).2
        refine ⟨?_, ?_, ?_, ?_⟩
        · exact List.chain'_cons.mpr ⟨hple, ihc⟩
        · rw [List.getLast?_cons_cons]
          exact ihl
        · exact ihr.trans hprun
        · intro s hs
          rcases List.mem_cons.mp hs with rfl | hs
          · exact hprun
          · exact (ihall s hs).trans hprun

theorem runPages_trace (download : String → Bool) (cancel : Nat → Bool)
    (pgs : List PageResult) : ∀ (repo : List String) (st : SyncRun),
    List.Chain' counterLE (st :: (runPages download cancel pgs repo st).snapshots) ∧
    (st :: (runPages download cancel pgs repo st).snapshots).getLast? =
      some (runPages download cancel pgs repo st).state ∧
    (runPages download cancel pgs repo st).state.running = st.running ∧
    (∀ s ∈ (runPages download cancel pgs repo st).snapshots, s.running = st.running) := by
  induction pgs with
  | nil =>
    intro repo st
    refine ⟨List.chain'_singleton st, rfl, rfl, ?_⟩
    intro s hs
    cases hs
  | cons pg pgs ih =>
    intro repo st
    cases hc : cancel st.scanned_posts with
    | true =>
      simp only [runPages, hc, if_pos rfl]
      refine ⟨List.chain'_singleton st, rfl, rfl, ?_⟩
      intro s hs
      cases hs
    | false =>
      cases pg with
      | authError msg =>
        simp only [runPages, hc, Bool.false_eq_true, if_false]
        refine ⟨?_, ?_, ?_, ?_⟩
        · refine List.chain'_cons.mpr ⟨?_, List.chain'_singleton _⟩
          exact ⟨le_rfl, le_rfl, le_rfl, le_rfl, le_rfl, le_rfl, le_rfl⟩
        · trivial
        · trivial
        · intro s hs
          rcases List.mem_cons.mp hs with rfl | hs
          · rfl
          · cases hs
      | ok posts =>
        have hst1 : counterLE st { st with scanned_pages := st.scanned_pages + 1 } :=
          ⟨Nat.le_succ _, le_rfl, le_rfl, le_rfl, le_rfl, le_rfl, le_rfl⟩
        obtain ⟨pc, pl, prn, pall⟩ := runPosts_trace download cancel posts repo
          { st with scanned_pages := st.scanned_pages + 1 }
        cases hstop : (runPosts download cancel posts repo
            { st with scanned_pages := st.scanned_pages + 1 }).stop with
        | some o =>
          simp only [runPages, hc, Bool.false_eq_true, if_false, hstop]
          refine ⟨?_, ?_, ?_, ?_⟩
          · exact List.chain'_cons.mpr ⟨hst1, pc⟩
          · rw [List.getLast?_cons_cons]
            exact pl
          · exact prn
          · intro s hs
            rcases List.mem_cons.mp hs with rfl | hs
            · rfl
            · exact pall s hs
        | none =>
          obtain ⟨ihc, ihl, ihr, ihall⟩ := ih
            (runPosts download cancel posts repo
              { st with scanned_pages := st.scanned_pages + 1 }).repo
            (runPosts download cancel posts repo
              { st with scanned_pages := st.scanned_pages + 1 }).state
          obtain ⟨gc, gl⟩ := chain'_glue _ _ _ _ pc pl ihc
          simp only [runPages, hc, Bool.false_eq_true, if_false, hstop]
          refine ⟨?_, ?_, ?_, ?_⟩
          · exact List.chain'_cons.mpr ⟨hst1, gc⟩
          · rw [List.getLast?_cons_cons]
            rw [List.cons_append] at gl
            rw [gl]
            exact ihl
          · exact ihr.trans prn
          · intro s hs
            rcases List.mem_cons.mp hs with rfl | hs
            · rfl
            · rcases List.mem_append.mp hs with hs | hs
              · exact pall s hs
              · exact (ihall s hs).trans prn

end Guac

namespace Guac

/-- C7: within a single run every counter is monotonically non-decreasing
across successive status snapshots, counters start from zero at the start of
the run (they are reset by `initRun` and only there), and `running`
transitions from true to false exactly once per run — the snapshot trace maps
to `true, ..., true, false` whether the run ends by completion, cancellation
or fatal error. -/
theorem syncRun_counters_monotone (download : String → Bool) (cancel : Nat → Bool)
    (maxNew : Option Nat) (pages : List PageResult) (repo0 : List String) :
    List.Chain' counterLE (syncRun download cancel maxNew pages repo0).trace ∧
    (syncRun download cancel maxNew pages repo0).trace.head? = some (initRun maxNew) ∧
    ((initRun maxNew).scanned_pages = 0 ∧ (initRun maxNew).scanned_posts = 0 ∧
     (initRun maxNew).skipped_existing = 0 ∧ (initRun maxNew).new_attempted = 0 ∧
     (initRun maxNew).downloaded_ok = 0 ∧ (initRun maxNew).failed_downloads = 0 ∧
     (initRun maxNew).unavailable = 0) ∧
    (syncRun download cancel maxNew pages repo0).trace.map SyncRun.running =
      List.replicate ((syncRun download cancel maxNew pages repo0).trace.length - 1) true
        ++ [false] := by
  obtain ⟨rc, rl, rr, rall⟩ := runPages_trace download cancel pages repo0 (initRun maxNew)
  simp only [syncRun]
  have hfin : counterLE
      (runPages download cancel pages repo0 (initRun maxNew)).state
      { (runPages download cancel pages repo0 (initRun maxNew)).state with
         running := false
         cancelled := decide (((runPages download cancel pages repo0
           (initRun maxNew)).stop.getD RunOutcome.completed) = RunOutcome.cancelled) } :=
    ⟨le_rfl, le_rfl, le_rfl, le_rfl, le_rfl, le_rfl, le_rfl⟩
  obtain ⟨gc, _⟩ := chain'_glue _ _ _ _ rc rl
    (List.chain'_cons.mpr ⟨hfin, List.chain'_singleton _⟩)
  have hmap : (runPages download cancel pages repo0 (initRun maxNew)).snapshots.map
      SyncRun.running =
      List.replicate (runPages download cancel pages repo0 (initRun maxNew)).snapshots.length
        true := by
    apply List.eq_replicate_iff.mpr
    constructor
    · simp
    · intro b hb
      rcases List.mem_map.mp hb with ⟨s, hs, rfl⟩
      exact rall s hs
  refine ⟨?_, rfl, ⟨rfl, rfl, rfl, rfl, rfl, rfl, rfl⟩, ?_⟩
  · exact gc
  · simp only [List.map_cons, List.map_append, List.map_cons, List.map_nil]
    rw [hmap]
    simp only [List.length_cons, List.length_append, List.length_nil]
    have harith : (runPages download cancel pages repo0 (initRun maxNew)).snapshots.length
        + 1 + 1 - 1 =
        (runPages download cancel pages repo0 (initRun maxNew)).snapshots.length + 1 := by
      omega
    rw [harith, List.replicate_succ]
    rfl

end Guac

namespace Guac

theorem runPosts_archive (download : String → Bool) (ps : List Post) :
    ∀ (repo : List String) (st : SyncRun),
    st.max_new_downloads = none →
    (∀ u, download u = true) →
    (∀ p ∈ ps, p.file_url.isSome) →
    (runPosts download (fun _ => false) ps repo st).stop = none ∧
    (runPosts download (fun _ => false) ps repo st).state.max_new_downloads = none ∧
    (∀ x ∈ repo, x ∈ (runPosts download (fun _ => false) ps repo st).repo) ∧
    (∀ p ∈ ps, p.source_id ∈ (runPosts download (fun _ => false) ps repo st).repo) := by
  induction ps with
  | nil =>
    intro repo st hmax hdl hurl
    refine ⟨rfl, hmax, fun x hx => hx, ?_⟩
    intro p hp
    cases hp
  | cons p ps ih =>
    intro repo st hmax hdl hurl
    have hmax2 : (processPost download repo st p).2.max_new_downloads = none :=
      (processPost_max download repo st p).trans hmax
    have hnostop : ¬ (st.downloaded_ok < (processPost download repo st p).2.downloaded_ok ∧
        reachedMax (processPost download repo st p).2) := by
      rintro ⟨_, hm⟩
      unfold reachedMax at hm
      rw [hmax2] at hm
      cases hm
    simp only [runPosts, Bool.false_eq_true, if_false, if_neg hnostop]
    obtain ⟨ihs, ihm, ihmono, ihall⟩ :=
      ih (processPost download repo st p).1 (processPost download repo st p).2 hmax2 hdl
        (fun q hq => hurl q (List.mem_cons_of_mem _ hq))
    refine ⟨ihs, ihm, ?_, ?_⟩
    · intro x hx
      exact ihmono x (processPost_repo_mono download repo st p x hx)
    · intro q hq
      rcases List.mem_cons.mp hq with rfl | hq
      · refine ihmono _ (processPost_mem download repo st q ?_)
        rcases hu : q.file_url with _ | u
        · exact absurd (hu ▸ hurl q (List.mem_cons_self _ _)) (by simp)
        · exact Or.inr ⟨u, rfl, hdl u⟩
      · exact ihall q hq

theorem runPages_archive (download : String → Bool) (pages : List (List Post)) :
    ∀ (repo : List String) (st : SyncRun),
    st.max_new_downloads = none →
    (∀ u, download u = true) →
    (∀ pg ∈ pages, ∀ p ∈ pg, p.file_url.isSome) →
    (runPages download (fun _ => false) (pages.map PageResult.ok) repo st).stop = none ∧
    (runPages download (fun _ => false) (pages.map PageResult.ok) repo st).state.max_new_downloads = none ∧
    (∀ x ∈ repo, x ∈ (runPages download (fun _ => false) (pages.map PageResult.ok) repo st).repo) ∧
    (∀ pg ∈ pages, ∀ p ∈ pg,
      p.source_id ∈ (runPages download (fun _ => false) (pages.map PageResult.ok) repo st).repo) := by
  induction pages with
  | nil =>
    intro repo st hmax hdl hurl
    refine ⟨rfl, hmax, fun x hx => hx, ?_⟩
    intro pg hpg
    cases hpg
  | cons pg pgs ih =>
    intro repo st hmax hdl hurl
    obtain ⟨ps0, pm0, pmono0, pall0⟩ := runPosts_archive download pg repo
      { st with scanned_pages := st.scanned_pages + 1 } hmax hdl
      (hurl pg (List.mem_cons_self _ _))
    simp only [List.map_cons, runPages, Bool.false_eq_true, if_false, ps0]
    obtain ⟨ihs, ihm, ihmono, ihall⟩ := ih
      (runPosts download (fun _ => false) pg repo
        { st with scanned_pages := st.scanned_pages + 1 }).repo
      (runPosts download (fun _ => false) pg repo
        { st with scanned_pages := st.scanned_pages + 1 }).state pm0 hdl
      (fun q hq => hurl q (List.mem_cons_of_mem _ hq))
    refine ⟨ihs, ihm, ?_, ?_⟩
    · intro x hx
      exact ihmono x (pmono0 x hx)
    · intro pg2 hpg2
      rcases List.mem_cons.mp hpg2 with rfl | hpg2
      · intro p hp
        exact ihmono _ (pall0 p hp)
      · exact ihall pg2 hpg2

theorem runPosts_skip (download : String → Bool) (ps : List Post) :
    ∀ (repo : List String) (st : SyncRun),
    (∀ p ∈ ps, p.source_id ∈ repo) →
    (runPosts download (fun _ => false) ps repo st).stop = none ∧
    (runPosts download (fun _ => false) ps repo st).repo = repo ∧
    (runPosts download (fun _ => false) ps repo st).state.downloaded_ok = st.downloaded_ok ∧
    (runPosts download (fun _ => false) ps repo st).state.skipped_existing =
      st.skipped_existing + ps.length := by
  induction ps with
  | nil =>
    intro repo st _
    exact ⟨rfl, rfl, rfl, rfl⟩
  | cons p ps ih =>
    intro repo st hall
    have hmem : p.source_id ∈ repo := hall p (List.mem_cons_self _ _)
    have hpr : processPost download repo st p =
        (repo,
         { st with
            scanned_posts := st.scanned_posts + 1
            skipped_existing := st.skipped_existing + 1 }) := by
      simp [processPost, hmem]
    simp only [runPosts, Bool.false_eq_true, if_false, hpr, lt_self_iff_false,
      false_and, if_false]
    obtain ⟨ihs, ihr, ihd, ihk⟩ := ih repo
      { st with
         scanned_posts := st.scanned_posts + 1
         skipped_existing := st.skipped_existing + 1 }
      (fun q hq => hall q (List.mem_cons_of_mem _ hq))
    refine ⟨ihs, ihr, ihd, ?_⟩
    rw [ihk]
    simp only [List.length_cons]
    omega

theorem runPages_skip (download : String → Bool) (pages : List (List Post)) :
    ∀ (repo : List String) (st : SyncRun),
    (∀ pg ∈ pages, ∀ p ∈ pg, p.source_id ∈ repo) →
    (runPages download (fun _ => false) (pages.map PageResult.ok) repo st).stop = none ∧
    (runPages download (fun _ => false) (pages.map PageResult.ok) repo st).repo = repo ∧
    (runPages download (fun _ => false) (pages.map PageResult.ok) repo st).state.downloaded_ok =
      st.downloaded_ok ∧
    (runPages download (fun _ => false) (pages.map PageResult.ok) repo st).state.skipped_existing =
      st.skipped_existing + (pages.map List.length).sum := by
  induction pages with
  | nil =>
    intro repo st _
    refine ⟨rfl, rfl, rfl, ?_⟩
    simp [runPages]
  | cons pg pgs ih =>
    intro repo st hall
    obtain ⟨ps0, pr0, pd0, pk0⟩ := runPosts_skip download pg repo
      { st with scanned_pages := st.scanned_pages + 1 }
      (hall pg (List.mem_cons_self _ _))
    simp only [List.map_cons, runPages, Bool.false_eq_true, if_false, ps0]
    obtain ⟨ihs, ihr, ihd, ihk⟩ := ih
      (runPosts download (fun _ => false) pg repo
        { st with scanned_pages := st.scanned_pages + 1 }).repo
      (runPosts download (fun _ => false) pg repo
        { st with scanned_pages := st.scanned_pages + 1 }).state
      (by
        rw [pr0]
        exact fun q hq => hall q (List.mem_cons_of_mem _ hq))
    refine ⟨ihs, by rw [ihr, pr0], ?_, ?_⟩
    · rw [ihd, pd0]
    · rw [ihk, pk0]
      simp only [List.map_cons, List.sum_cons]
      omega

/-- C1: running the primary sync engine a second time in succession against an
unchanged remote favorites list (downloads succeeding, every post carrying a
file URL, no cancellation, no stop-after-N) yields `downloaded_ok = 0` and
`skipped_existing` equal to the total post count on the second run: the
re-run re-scans every page but skips the already-archived items. -/
theorem syncRun_idempotent (download : String → Bool) (pages : List (List Post))
    (repo0 : List String)
    (hdl : ∀ u, download u = true)
    (hurl : ∀ pg ∈ pages, ∀ p ∈ pg, p.file_url.isSome) :
    (syncRun download (fun _ => false) none (pages.map PageResult.ok)
        (syncRun download (fun _ => false) none (pages.map PageResult.ok) repo0).repo).final.downloaded_ok = 0 ∧
    (syncRun download (fun _ => false) none (pages.map PageResult.ok)
        (syncRun download (fun _ => false) none (pages.map PageResult.ok) repo0).repo).final.skipped_existing =
      (pages.map List.length).sum ∧
    (syncRun download (fun _ => false) none (pages.map PageResult.ok)
        (syncRun download (fun _ => false) none (pages.map PageResult.ok) repo0).repo).outcome =
      RunOutcome.completed := by
  obtain ⟨_, _, _, hall⟩ := runPages_archive download pages repo0 (initRun none) rfl hdl hurl
  have hrepo1 : (syncRun download (fun _ => false) none (pages.map PageResult.ok) repo0).repo =
      (runPages download (fun _ => false) (pages.map PageResult.ok) repo0 (initRun none)).repo := rfl
  obtain ⟨s2, r2, d2, k2⟩ := runPages_skip download pages
    (runPages download (fun _ => false) (pages.map PageResult.ok) repo0 (initRun none)).repo
    (initRun none) hall
  simp only [syncRun, hrepo1]
  refine ⟨?_, ?_, ?_⟩
  · exact d2
  · rw [k2]
    simp [initRun]
  · rw [s2]
    rfl

end Guac

namespace Guac

theorem eligibleB_false_of_mem (download : String → Bool) (repo : List String)
    (p : Post) (h : p.source_id ∈ repo) : eligibleB download repo p = false := by
  simp [eligibleB, h]

theorem eligibleB_congr (download : String → Bool) (repo1 repo2 : List String)
    (p : Post) (h : p.source_id ∈ repo1 ↔ p.source_id ∈ repo2) :
    eligibleB download repo1 p = eligibleB download repo2 p := by
  unfold eligibleB
  congr 1
  exact decide_eq_decide.mpr (not_iff_not.mpr h)

theorem runPosts_stopN (download : String → Bool) (ps : List Post) :
    ∀ (repo : List String) (st : SyncRun) (N : Nat),
    st.max_new_downloads = some N →
    st.downloaded_ok < N →
    (ps.map Post.source_id).Nodup →
    ((runPosts download (fun _ => false) ps repo st).stop = some RunOutcome.completed ∧
     (runPosts download (fun _ => false) ps repo st).state.downloaded_ok = N) ∨
    ((runPosts download (fun _ => false) ps repo st).stop = none ∧
     (runPosts download (fun _ => false) ps repo st).state.downloaded_ok =
       st.downloaded_ok + ps.countP (eligibleB download repo) ∧
     (runPosts download (fun _ => false) ps repo st).state.downloaded_ok < N ∧
     (runPosts download (fun _ => false) ps repo st).state.max_new_downloads = some N ∧
     (∀ x, x ∉ ps.map Post.source_id →
       (x ∈ (runPosts download (fun _ => false) ps repo st).repo ↔ x ∈ repo))) := by
  induction ps with
  | nil =>
    intro repo st N hmax hdok _
    right
    exact ⟨rfl, by simp [runPosts], hdok, hmax, fun x _ => Iff.rfl⟩
  | cons p ps ih =>
    intro repo st N hmax hdok hnodup
    have hnd1 : (ps.map Post.source_id).Nodup :=
      (List.nodup_cons.mp (by simpa using hnodup)).2
    have hhead : p.source_id ∉ ps.map Post.source_id :=
      (List.nodup_cons.mp (by simpa using hnodup)).1
    by_cases hmem : p.source_id ∈ repo
    · -- already archived: skipped, nothing else changes
      have hpr : processPost download repo st p =
          (repo,
           { st with
              scanned_posts := st.scanned_posts + 1
              skipped_existing := st.skipped_existing + 1 }) := by
        simp [processPost, hmem]
      simp only [runPosts, Bool.false_eq_true, if_false, hpr, lt_self_iff_false,
        false_and, if_false]
      have helig : eligibleB download repo p = false := eligibleB_false_of_mem _ _ _ hmem
      rcases ih repo
        { st with
           scanned_posts := st.scanned_posts + 1
           skipped_existing := st.skipped_existing + 1 } N hmax hdok hnd1 with
        ⟨hs, hd⟩ | ⟨hs, hd, hlt, hm, hiff⟩
      · exact Or.inl ⟨hs, hd⟩
      · refine Or.inr ⟨hs, ?_, hlt, hm, ?_⟩
        · rw [hd, List.countP_cons_of_neg _ _ (by simp [helig])]
        · intro x hx
          exact hiff x (fun hx2 => hx (List.mem_cons_of_mem _ hx2))
    · cases hf : p.file_url with
      | none =>
        have hpr : processPost download repo st p =
            (repo,
             { st with
                scanned_posts := st.scanned_posts + 1
                new_attempted := st.new_attempted + 1
                unavailable := st.unavailable + 1 }) := by
          simp [processPost, hmem, hf]
        simp only [runPosts, Bool.false_eq_true, if_false, hpr, lt_self_iff_false,
          false_and, if_false]
        have helig : eligibleB download repo p = false := by
          simp [eligibleB, hf]
        rcases ih repo
          { st with
             scanned_posts := st.scanned_posts + 1
             new_attempted := st.new_attempted + 1
             unavailable := st.unavailable + 1 } N hmax hdok hnd1 with
          ⟨hs, hd⟩ | ⟨hs, hd, hlt, hm, hiff⟩
        · exact Or.inl ⟨hs, hd⟩
        · refine Or.inr ⟨hs, ?_, hlt, hm, ?_⟩
          · rw [hd, List.countP_cons_of_neg _ _ (by simp [helig])]
          · intro x hx
            exact hiff x (fun hx2 => hx (List.mem_cons_of_mem _ hx2))
      | some url =>
        cases hd : download url with
        | false =>
          have hpr : processPost download repo st p =
              (repo,
               { st with
                  scanned_posts := st.scanned_posts + 1
                  new_attempted := st.new_attempted + 1
                  failed_downloads := st.failed_downloads + 1
                  last_error := some ("download failed: " ++ url) }) := by
            simp [processPost, hmem, hf, hd]
          simp only [runPosts, Bool.false_eq_true, if_false, hpr, lt_self_iff_false,
            false_and, if_false]
          have helig : eligibleB download repo p = false := by
            simp [eligibleB, hf, hd]
          rcases ih repo
            { st with
               scanned_posts := st.scanned_posts + 1
               new_attempted := st.new_attempted + 1
               failed_downloads := st.failed_downloads + 1
               last_error := some ("download failed: " ++ url) } N hmax hdok hnd1 with
            ⟨hs, hdd⟩ | ⟨hs, hdd, hlt, hm, hiff⟩
          · exact Or.inl ⟨hs, hdd⟩
          · refine Or.inr ⟨hs, ?_, hlt, hm, ?_⟩
            · rw [hdd, List.countP_cons_of_neg _ _ (by simp [helig])]
            · intro x hx
              exact hiff x (fun hx2 => hx (List.mem_cons_of_mem _ hx2))
        | true =>
          have hpr : processPost download repo st p =
              (p.source_id :: repo,
               { st with
                  scanned_posts := st.scanned_posts + 1
                  new_attempted := st.new_attempted + 1
                  downloaded_ok := st.downloaded_ok + 1 }) := by
            simp [processPost, hmem, hf, hd]
          have helig : eligibleB download repo p = true := by
            simp [eligibleB, hmem, hf, hd]
          by_cases hreach : N ≤ st.downloaded_ok + 1
          · -- the download that reaches the limit: run stops completed
            have hstop : st.downloaded_ok <
                (processPost download repo st p).2.downloaded_ok ∧
                reachedMax (processPost download repo st p).2 := by
              rw [hpr]
              refine ⟨by simp, ?_⟩
              simp [reachedMax, hmax, hreach]
            simp only [runPosts, Bool.false_eq_true, if_false, if_pos hstop]
            left
            refine ⟨?_, ?_⟩
            · trivial
            · simp only [hpr]
              omega
          · have hnostop : ¬ (st.downloaded_ok <
                (processPost download repo st p).2.downloaded_ok ∧
                reachedMax (processPost download repo st p).2) := by
              rw [hpr]
              rintro ⟨_, hr⟩
              unfold reachedMax at hr
              rw [hmax] at hr
              simp only [decide_eq_true_eq] at hr
              exact hreach hr
            simp only [runPosts, Bool.false_eq_true, if_false, if_neg hnostop]
            simp only [hpr]
            have hdok2 : st.downloaded_ok + 1 < N := by omega
            rcases ih (p.source_id :: repo)
              { st with
                 scanned_posts := st.scanned_posts + 1
                 new_attempted := st.new_attempted + 1
                 downloaded_ok := st.downloaded_ok + 1 } N hmax hdok2 hnd1 with
              ⟨hs, hdd⟩ | ⟨hs, hdd, hlt, hm, hiff⟩
            · exact Or.inl ⟨hs, hdd⟩
            · refine Or.inr ⟨hs, ?_, hlt, hm, ?_⟩
              · rw [hdd]
                have hcong : ps.countP (eligibleB download (p.source_id :: repo)) =
                    ps.countP (eligibleB download repo) := by
                  apply List.countP_congr
                  intro q hq
                  have hne : q.source_id ≠ p.source_id := by
                    intro he
                    exact hhead (he ▸ List.mem_map_of_mem Post.source_id hq)
                  rw [eligibleB_congr download (p.source_id :: repo) repo q (by simp [hne])]
                rw [hcong, List.countP_cons_of_pos _ _ (by simp [helig])]
                simp only []
                omega
              · intro x hx
                have hx1 : x ≠ p.source_id := by
                  intro he
                  exact hx (he ▸ List.mem_cons_self _ _)
                have hx2 : x ∉ ps.map Post.source_id :=
                  fun hx2 => hx (List.mem_cons_of_mem _ hx2)
                rw [hiff x hx2]
                simp [hx1]

end Guac

namespace Guac

theorem runPages_stopN (download : String → Bool) (pages : List (List Post)) :
    ∀ (repo : List String) (st : SyncRun) (N : Nat),
    st.max_new_downloads = some N →
    st.downloaded_ok < N →
    (pages.flatten.map Post.source_id).Nodup →
    N ≤ st.downloaded_ok + pages.flatten.countP (eligibleB download repo) →
    (runPages download (fun _ => false) (pages.map PageResult.ok) repo st).stop =
      some RunOutcome.completed ∧
    (runPages download (fun _ => false) (pages.map PageResult.ok) repo st).state.downloaded_ok
      = N := by
  induction pages with
  | nil =>
    intro repo st N _ hdok _ hcount
    simp only [List.flatten_nil, List.countP_nil, Nat.add_zero] at hcount
    omega
  | cons pg pgs ih =>
    intro repo st N hmax hdok hnodup hcount
    rw [List.flatten_cons] at hnodup hcount
    have hnd1 : (pg.map Post.source_id).Nodup := by
      rw [List.map_append] at hnodup
      exact hnodup.of_append_left
    have hnd2 : (pgs.flatten.map Post.source_id).Nodup := by
      rw [List.map_append] at hnodup
      exact hnodup.of_append_right
    have hdisj : ∀ x, x ∈ pgs.flatten.map Post.source_id → x ∉ pg.map Post.source_id := by
      rw [List.map_append, List.nodup_append] at hnodup
      intro x hx2 hx1
      exact hnodup.2.2 hx1 hx2
    rcases runPosts_stopN download pg repo
      { st with scanned_pages := st.scanned_pages + 1 } N hmax hdok hnd1 with
      ⟨hs, hd⟩ | ⟨hs, hd, hlt, hm, hiff⟩
    · simp only [List.map_cons, runPages, Bool.false_eq_true, if_false, hs]
      exact ⟨by trivial, hd⟩
    · simp only [List.map_cons, runPages, Bool.false_eq_true, if_false, hs]
      have hcong : pgs.flatten.countP (eligibleB download
          (runPosts download (fun _ => false) pg repo
            { st with scanned_pages := st.scanned_pages + 1 }).repo) =
          pgs.flatten.countP (eligibleB download repo) := by
        apply List.countP_congr
        intro q hq
        rw [eligibleB_congr download _ repo q (hiff q.source_id
          (hdisj q.source_id (List.mem_map_of_mem Post.source_id hq)))]
      refine ih _ _ N hm hlt hnd2 ?_
      simp only [hcong, hd]
      rw [List.countP_append] at hcount
      omega

/-- C2: a run started with `max_new_downloads = N > 0` against pages holding
at least `N` eligible new posts (not yet archived, file URL present, download
succeeding; post ids pairwise distinct) stops after exactly `N` successful
downloads: it ends with `downloaded_ok = N` and final state `completed`, not
`cancelled` — the stop check runs after each successful download. -/
theorem syncRun_stop_after_N (download : String → Bool) (pages : List (List Post))
    (repo0 : List String) (N : Nat)
    (hN : 0 < N)
    (hnodup : (pages.flatten.map Post.source_id).Nodup)
    (hcount : N ≤ pages.flatten.countP (eligibleB download repo0)) :
    (syncRun download (fun _ => false) (some N) (pages.map PageResult.ok)
      repo0).final.downloaded_ok = N ∧
    (syncRun download (fun _ => false) (some N) (pages.map PageResult.ok)
      repo0).outcome = RunOutcome.completed ∧
    (syncRun download (fun _ => false) (some N) (pages.map PageResult.ok)
      repo0).final.cancelled = false ∧
    (syncRun download (fun _ => false) (some N) (pages.map PageResult.ok)
      repo0).final.running = false := by
  obtain ⟨hstop, hdok⟩ := runPages_stopN download pages repo0 (initRun (some N)) N
    rfl hN hnodup (by simpa [initRun] using hcount)
  simp only [syncRun, hstop]
  refine ⟨hdok, ?_, ?_, ?_⟩ <;> trivial

/-- Witness for C2: with `max_new_downloads = 1` and two eligible new posts,
the run ends completed with exactly one download. -/
theorem syncRun_stop_after_N_witness :
    (syncRun (fun _ => true) (fun _ => false) (some 1)
      ((([[⟨"a", some "u1"⟩, ⟨"b", some "u2"⟩]] : List (List Post)).map PageResult.ok))
      []).final.downloaded_ok = 1 ∧
    (syncRun (fun _ => true) (fun _ => false) (some 1)
      ((([[⟨"a", some "u1"⟩, ⟨"b", some "u2"⟩]] : List (List Post)).map PageResult.ok))
      []).outcome = RunOutcome.completed ∧
    (syncRun (fun _ => true) (fun _ => false) (some 1)
      ((([[⟨"a", some "u1"⟩, ⟨"b", some "u2"⟩]] : List (List Post)).map PageResult.ok))
      []).final.cancelled = false ∧
    (syncRun (fun _ => true) (fun _ => false) (some 1)
      ((([[⟨"a", some "u1"⟩, ⟨"b", some "u2"⟩]] : List (List Post)).map PageResult.ok))
      []).final.running = false :=
  syncRun_stop_after_N (fun _ => true) ([[⟨"a", some "u1"⟩, ⟨"b", some "u2"⟩]] : List (List Post)) [] 1
    (by decide) (by decide) (by decide)

/-- Witness for C1: re-running over the same two one-post pages downloads
nothing and skips both posts. -/
theorem syncRun_idempotent_witness :
    (syncRun (fun _ => true) (fun _ => false) none
        ((([[⟨"p1", some "u1"⟩], [⟨"p2", some "u2"⟩]] : List (List Post)).map PageResult.ok))
        (syncRun (fun _ => true) (fun _ => false) none
          ((([[⟨"p1", some "u1"⟩], [⟨"p2", some "u2"⟩]] : List (List Post)).map PageResult.ok))
          []).repo).final.downloaded_ok = 0 ∧
    (syncRun (fun _ => true) (fun _ => false) none
        ((([[⟨"p1", some "u1"⟩], [⟨"p2", some "u2"⟩]] : List (List Post)).map PageResult.ok))
        (syncRun (fun _ => true) (fun _ => false) none
          ((([[⟨"p1", some "u1"⟩], [⟨"p2", some "u2"⟩]] : List (List Post)).map PageResult.ok))
          []).repo).final.skipped_existing =
      ((([[⟨"p1", some "u1"⟩], [⟨"p2", some "u2"⟩]] : List (List Post)).map List.length)).sum ∧
    (syncRun (fun _ => true) (fun _ => false) none
        ((([[⟨"p1", some "u1"⟩], [⟨"p2", some "u2"⟩]] : List (List Post)).map PageResult.ok))
        (syncRun (fun _ => true) (fun _ => false) none
          ((([[⟨"p1", some "u1"⟩], [⟨"p2", some "u2"⟩]] : List (List Post)).map PageResult.ok))
          []).repo).outcome = RunOutcome.completed :=
  syncRun_idempotent (fun _ => true) ([[⟨"p1", some "u1"⟩], [⟨"p2", some "u2"⟩]] : List (List Post)) []
    (fun _ => rfl) (by decide)

end Guac

namespace Guac

/-- Counterexample for C3 as stated: a secondary-source candidate whose
downloaded content hash ("h1") matches an existing primary-source Item's hash
is classified `SkippedExistingHash` by step 3 of the reconciler — not
`Upgraded` — and neither the `upgraded` nor the `imported` counter moves; the
repository (and so the existing Item's primary source) is unchanged. -/
theorem reconcile_counterexample :
    (reconcile (fun _ => "h1") (fun _ => some [0]) (fun _ => none)
      [{ source := Source.primary, source_id := "123", remote_url := some "purl",
         content_hash := some "h1", sources := [] }]
      { scanned := 0, skipped_url := 0, skipped_md5 := 0, imported := 0,
        upgraded := 0, errors := 0, current_message := "" }
      { remote_url := "furl", page_source_id := "fa1" }).2.2 =
      ReconcileOutcome.skippedExistingHash ∧
    (reconcile (fun _ => "h1") (fun _ => some [0]) (fun _ => none)
      [{ source := Source.primary, source_id := "123", remote_url := some "purl",
         content_hash := some "h1", sources := [] }]
      { scanned := 0, skipped_url := 0, skipped_md5 := 0, imported := 0,
        upgraded := 0, errors := 0, current_message := "" }
      { remote_url := "furl", page_source_id := "fa1" }).2.2 ≠
      ReconcileOutcome.upgraded ∧
    (reconcile (fun _ => "h1") (fun _ => some [0]) (fun _ => none)
      [{ source := Source.primary, source_id := "123", remote_url := some "purl",
         content_hash := some "h1", sources := [] }]
      { scanned := 0, skipped_url := 0, skipped_md5 := 0, imported := 0,
        upgraded := 0, errors := 0, current_message := "" }
      { remote_url := "furl", page_source_id := "fa1" }).2.1.upgraded = 0 ∧
    (reconcile (fun _ => "h1") (fun _ => some [0]) (fun _ => none)
      [{ source := Source.primary, source_id := "123", remote_url := some "purl",
         content_hash := some "h1", sources := [] }]
      { scanned := 0, skipped_url := 0, skipped_md5 := 0, imported := 0,
        upgraded := 0, errors := 0, current_message := "" }
      { remote_url := "furl", page_source_id := "fa1" }).1 =
      [{ source := Source.primary, source_id := "123", remote_url := some "purl",
         content_hash := some "h1", sources := [] }] := by
  refine ⟨?_, ?_, ?_, ?_⟩ <;> decide

/-- C3 (corrected): when a secondary-source candidate's URL is not yet
archived and its downloaded content hash matches no existing Item but is
discoverable in the primary source's remote index, `reconcile` returns
`Upgraded`, the committed Item is attributed to the primary source, the
`upgraded` counter increments by exactly 1 and `imported` does not change. -/
theorem reconcile_upgrade (hash : List Nat → String)
    (download : String → Option (List Nat))
    (primaryLookup : String → Option PrimaryRecord)
    (repo : List RItem) (st : FAStatus) (c : Candidate)
    (bytes : List Nat) (pr : PrimaryRecord)
    (hurl : ¬ repo.any (fun it => it.remote_url = some c.remote_url) = true)
    (hdl : download c.remote_url = some bytes)
    (hhash : ¬ repo.any (fun it => it.content_hash = some (hash bytes)) = true)
    (hpl : primaryLookup (hash bytes) = some pr) :
    (reconcile hash download primaryLookup repo st c).2.2 =
      ReconcileOutcome.upgraded ∧
    (∃ item, (reconcile hash download primaryLookup repo st c).1 = item :: repo ∧
      item.source = Source.primary) ∧
    (reconcile hash download primaryLookup repo st c).2.1.upgraded =
      st.upgraded + 1 ∧
    (reconcile hash download primaryLookup repo st c).2.1.imported = st.imported := by
  unfold reconcile
  rw [if_neg hurl]
  simp only [hdl]
  rw [if_neg hhash]
  simp only [hpl]
  refine ⟨by trivial, ⟨_, by trivial, by trivial⟩, by trivial, by trivial⟩

/-- Witness for C3 (corrected) at a concrete candidate: an empty repository,
a hash discoverable in the primary index, outcome `Upgraded` with a
primary-source Item and counters `upgraded = 1`, `imported = 0`. -/
theorem reconcile_upgrade_witness :
    (reconcile (fun _ => "h1") (fun _ => some [0]) (fun _ => some ⟨"77", "purl"⟩)
      [] { scanned := 0, skipped_url := 0, skipped_md5 := 0, imported := 0,
           upgraded := 0, errors := 0, current_message := "" }
      { remote_url := "furl", page_source_id := "fa1" }).2.2 =
      ReconcileOutcome.upgraded ∧
    (∃ item, (reconcile (fun _ => "h1") (fun _ => some [0]) (fun _ => some ⟨"77", "purl"⟩)
      [] { scanned := 0, skipped_url := 0, skipped_md5 := 0, imported := 0,
           upgraded := 0, errors := 0, current_message := "" }
      { remote_url := "furl", page_source_id := "fa1" }).1 = item :: [] ∧
      item.source = Source.primary) ∧
    (reconcile (fun _ => "h1") (fun _ => some [0]) (fun _ => some ⟨"77", "purl"⟩)
      [] { scanned := 0, skipped_url := 0, skipped_md5 := 0, imported := 0,
           upgraded := 0, errors := 0, current_message := "" }
      { remote_url := "furl", page_source_id := "fa1" }).2.1.upgraded = 0 + 1 ∧
    (reconcile (fun _ => "h1") (fun _ => some [0]) (fun _ => some ⟨"77", "purl"⟩)
      [] { scanned := 0, skipped_url := 0, skipped_md5 := 0, imported := 0,
           upgraded := 0, errors := 0, current_message := "" }
      { remote_url := "furl", page_source_id := "fa1" }).2.1.imported = 0 :=
  reconcile_upgrade (fun _ => "h1") (fun _ => some [0]) (fun _ => some ⟨"77", "purl"⟩)
    [] { scanned := 0, skipped_url := 0, skipped_md5 := 0, imported := 0,
         upgraded := 0, errors := 0, current_message := "" }
    { remote_url := "furl", page_source_id := "fa1" } [0] ⟨"77", "purl"⟩
    (by decide) rfl (by decide) rfl

/-- C8: `e621_get_cred_info` returns only the username and a has-secret flag;
two credential stores that agree on the username and both hold a non-blank
secret — whatever the two secret values are — produce identical results, so
no caller can observe the stored secret through this interface (the result
type `E621CredInfo`, mirrored from the frontend, has no field for it). -/
theorem e621_get_cred_info_no_leak (s1 s2 : CredStore) (k1 k2 : String)
    (huser : s1.username = s2.username)
    (h1 : s1.api_key = some k1) (h2 : s2.api_key = some k2)
    (hk1 : k1 ≠ "") (hk2 : k2 ≠ "") :
    e621_get_cred_info s1 = e621_get_cred_info s2 := by
  unfold e621_get_cred_info
  rw [huser, h1, h2]
  simp only [decide_eq_true hk1, decide_eq_true hk2]

/-- Witness for C8: two stores with the same username and different non-blank
secrets are indistinguishable through `e621_get_cred_info`. -/
theorem e621_get_cred_info_no_leak_witness :
    e621_get_cred_info { username := some "alice", api_key := some "secret-one" } =
    e621_get_cred_info { username := some "alice", api_key := some "another" } :=
  e621_get_cred_info_no_leak
    { username := some "alice", api_key := some "secret-one" }
    { username := some "alice", api_key := some "another" }
    "secret-one" "another" rfl rfl rfl (by decide) (by decide)

end Guac
